import Mathlib

/-!
Verification of the momentum ranking / allocation / position-lifecycle core of
the cyberoasisprojectreborn repository, shallowly embedded over `ℚ`.

Embedded sources:
* `src/Strategies/AB/AB_Backtest.py` — `Momentum.next`, `KeltnerStrategy.next`,
  `KeltnerStrategy.notify_trade`, `KeltnerStrategy.stop`;
* `src/strategies/backtest/momentums.py` — `MomentumAllocation`;
* `src/generic/funcs_for_pairs_histories.py` — `momentum_ranking_for_pairs_histories`,
  `calc_portfolio_parity`.

Machine floats are idealised as rationals; where IEEE special values matter
(inverse-volatility weights) an explicit extended-float type is used.
-/

/-! ## Rounding (Python `round(x, d)`: round half to even) -/

/-- Round a rational to the nearest integer, ties to the even neighbour —
the behaviour of Python's builtin `round` and of `numpy.round`. -/
def roundHalfEven (q : ℚ) : ℤ :=
  if q - (⌊q⌋ : ℚ) < 1/2 then ⌊q⌋
  else if 1/2 < q - (⌊q⌋ : ℚ) then ⌊q⌋ + 1
  else if ⌊q⌋ % 2 = 0 then ⌊q⌋ else ⌊q⌋ + 1

/-- Python `round(x, d)`: round to `d` decimal places, ties to even. -/
def roundq (q : ℚ) (d : ℕ) : ℚ :=
  (roundHalfEven (q * (10 : ℚ) ^ d) : ℚ) / (10 : ℚ) ^ d

/-! ## scipy.stats.linregress, relationally

`linregress(x, y)` with `x = 0, 1, …, n−1` returns
`slope = ssxym / ssxm` and `r = ssxym / sqrt(ssxm · ssym)` (with `r = 0` when
the denominator vanishes).  The square root is irrational in general, so the
pair `(slope, r)` is characterised by the predicate `IsLinregress` below:
`slope` satisfies the normal equation and `r` is the number whose square is
`ssxym² / (ssxm·ssym)`, with the sign of `ssxym`, and `0` in the degenerate
case — exactly scipy's outputs, idealised over `ℚ`. -/

namespace Linregress

/-- Arithmetic mean of a list of rationals (`0` for the empty list). -/
def mean (l : List ℚ) : ℚ := l.sum / l.length

/-- The regression abscissae `0, 1, …, n−1` (`np.arange(len(returns))`). -/
def idxs (n : ℕ) : List ℚ := (List.range n).map (fun i => (i : ℚ))

/-- `Σ (x_i − x̄)²` for `x = 0, …, n−1` with `n = ys.length`. -/
def ssxm (ys : List ℚ) : ℚ :=
  let xs := idxs ys.length
  (xs.map (fun x => (x - mean xs) ^ 2)).sum

/-- `Σ (y_i − ȳ)²`. -/
def ssym (ys : List ℚ) : ℚ := (ys.map (fun y => (y - mean ys) ^ 2)).sum

/-- `Σ (x_i − x̄)(y_i − ȳ)`. -/
def ssxym (ys : List ℚ) : ℚ :=
  let xs := idxs ys.length
  (List.zipWith (fun x y => (x - mean xs) * (y - mean ys)) xs ys).sum

/-- `(slope, rvalue)` are the outputs of `scipy.stats.linregress` on the
y-values `ys` against integer indices. -/
def IsLinregress (ys : List ℚ) (slope rvalue : ℚ) : Prop :=
  slope * ssxm ys = ssxym ys ∧
  rvalue ^ 2 * (ssxm ys * ssym ys) = (ssxym ys) ^ 2 ∧
  (0 ≤ ssxym ys → 0 ≤ rvalue) ∧
  (ssxym ys ≤ 0 → rvalue ≤ 0) ∧
  (ssxm ys * ssym ys = 0 → rvalue = 0)

instance (ys : List ℚ) (slope rvalue : ℚ) : Decidable (IsLinregress ys slope rvalue) := by
  unfold IsLinregress; infer_instance

end Linregress

/-! ## `Momentum.next` (src/Strategies/AB/AB_Backtest.py, lines 113–125) -/

namespace ABBacktest

/-- `self.data.get(size=k)`: the last `k` observed values of a series. -/
def lastWindow (l : List ℚ) (k : ℕ) : List ℚ := l.drop (l.length - k)

/-- `Momentum.next` (AB_Backtest.py lines 113–125) given the linregress
outputs `(slope, rvalue)` for the fast window (last `period/2` log-closes) and
the slow window (last `period` log-closes).  Returns
`(momentum line, rvalue line)`:
```
rvalue_fast = 1 - rvalue_fast
rvalue_slow = 1 - rvalue_slow
momentum_fast = slope_fast * (rvalue_fast ** 2) * 10000
momentum_slow = slope_slow * (rvalue_slow ** 2) * 10000
momentum = round((momentum_fast + momentum_slow) / 2, 2)
rvalue   = round(((rvalue_fast ** 2) + (rvalue_slow ** 2)) / 2, 4)
```
-/
def momentumNext (slope_fast rvalue_fast slope_slow rvalue_slow : ℚ) : ℚ × ℚ :=
  let rf := 1 - rvalue_fast
  let rs := 1 - rvalue_slow
  let momentum_fast := slope_fast * rf ^ 2 * 10000
  let momentum_slow := slope_slow * rs ^ 2 * 10000
  (roundq ((momentum_fast + momentum_slow) / 2) 2, roundq ((rf ^ 2 + rs ^ 2) / 2) 4)

end ABBacktest

/-! ## `_momentum_calculate` (src/strategies/backtest/momentums.py, lines 53–59) -/

namespace Momentums

/-- `MomentumAllocation._momentum_calculate`: single-window momentum
`slope * 100 * rvalue²` from the linregress outputs on the rolling close
window. -/
def momentumCalculate (slope rvalue : ℚ) : ℚ :=
  slope * 100 * rvalue ^ 2

end Momentums

/-! ## `KeltnerStrategy.next` ranking (src/Strategies/AB/AB_Backtest.py, lines 207–252)

Per data feed `d` the strategy reads its observed bar count `len(d)`, the
momentum and ATRR (inverse normalised volatility, `1 / (ATR / close)`)
indicator values, the current position size, the Keltner channel bands and
the current close.  `CoinState` carries exactly this per-feed view. -/

namespace ABBacktest

/-- The per-feed data `KeltnerStrategy.next` reads for one coin. -/
structure CoinState where
  pair : String
  len : ℕ
  momentum : ℚ
  atrr : ℚ
  pos : ℚ
  klBot : ℚ
  klTop : ℚ
  close : ℚ
deriving DecidableEq

/-- Line 211: `list(filter(lambda x: len(x) > max(momentum_period, ETH_SMA_period,
ATRR_period), self.coins))`; `maxPeriod` stands for that maximum. -/
def allCoinsLoopList (maxPeriod : ℕ) (coins : List CoinState) : List CoinState :=
  coins.filter (fun d => decide (maxPeriod < d.len))

/-- Lines 212–223: build the ranking rows, skipping a coin when
`(pair_momentum < 0) or (pair in BLACK_LIST)` (line 218), then
`sort_values(by=["momentum"], ascending=False)`.  The sort is modelled as a
stable descending sort on momentum: pandas applies numpy's sort to the single
momentum column, which for the small universes appearing in the theorems
below is insertion sort, stable in the original feed order; in no case does
the code consult the symbol as a tie-break key. -/
def coinsRanking (maxPeriod : ℕ) (blackList : List String) (coins : List CoinState) :
    List CoinState :=
  List.insertionSort (fun a b => b.momentum ≤ a.momentum)
    ((allCoinsLoopList maxPeriod coins).filter
      (fun d => decide (¬(d.momentum < 0 ∨ d.pair ∈ blackList))))

/-- Lines 224 and 239/244: `self.coins_ranking.head(self.NUM_ELITE_COINS)`,
the elite set of the cycle. -/
def eliteCoins (maxPeriod N : ℕ) (blackList : List String) (coins : List CoinState) :
    List CoinState :=
  (coinsRanking maxPeriod blackList coins).take N

end ABBacktest

/-! ## Python truthiness of the optional ranking-configuration arguments -/

/-- Python truthiness of an optional float (`None` and `0.0` are falsy). -/
def truthyQ : Option ℚ → Bool
  | none => false
  | some x => decide (x ≠ 0)

/-- Python truthiness of an optional int (`None` and `0` are falsy). -/
def truthyN : Option ℕ → Bool
  | none => false
  | some n => decide (n ≠ 0)

/-- Python `int()` applied to a float: truncation toward zero. -/
def ratTrunc (q : ℚ) : ℤ :=
  if q < 0 then -⌊-q⌋ else ⌊q⌋

/-! ## Configuration validation of the two ranking entry points -/

namespace Momentums

/-- `MomentumAllocation.allocation_momentum_ranking`, momentums.py lines 15–18:
```
if not (top_decimal or top_number):
    raise ValueError("Please provide either top decimal or top number")
if not top_number:
    top_number = int(len(vbt_data.data) * top_decimal)
```
Returns the effective `top_number`, or the raised error. -/
def resolveTopNumber (numPairs : ℕ) (top_decimal : Option ℚ) (top_number : Option ℕ) :
    Except String ℤ :=
  if ¬(truthyQ top_decimal ∨ truthyN top_number) then
    Except.error "Please provide either top decimal or top number"
  else if ¬truthyN top_number then
    Except.ok (ratTrunc ((numPairs : ℚ) * top_decimal.getD 0))
  else
    Except.ok (top_number.getD 0 : ℤ)

end Momentums

namespace FuncsPairsHistories

/-- `momentum_ranking_for_pairs_histories`, funcs_for_pairs_histories.py
lines 13–14:
```
if top_number and top_decimal:
    raise AssertionError("You can only provide either top decimal or top number")
```
-/
def momentumRankingArgsCheck (top_decimal : Option ℚ) (top_number : Option ℕ) :
    Except String Unit :=
  if truthyN top_number ∧ truthyQ top_decimal then
    Except.error "You can only provide either top decimal or top number"
  else
    Except.ok ()

end FuncsPairsHistories

/-! ## Extended floats for the inverse-volatility weights

`ATRR = 1 / (ATR / close)` is an IEEE double in the source: a zero ATR makes
it infinite and a missing one makes it NaN, and those special values steer
the weight normalisation of AB_Backtest.py line 247 (`round(ATRR / ATRR_sum, 6)`
with `ATRR_sum` a pandas `.sum()`).  `EFloat` models exactly the value domain
and operations involved. -/

/-- An IEEE-754-style extended value: finite (idealised as `ℚ`), ±∞ or NaN. -/
inductive EFloat where
  | finite : ℚ → EFloat
  | posInf : EFloat
  | negInf : EFloat
  | nan : EFloat
deriving DecidableEq

namespace EFloat

/-- IEEE addition on extended values. -/
def add : EFloat → EFloat → EFloat
  | nan, _ => nan
  | _, nan => nan
  | finite a, finite b => finite (a + b)
  | finite _, posInf => posInf
  | finite _, negInf => negInf
  | posInf, finite _ => posInf
  | posInf, posInf => posInf
  | posInf, negInf => nan
  | negInf, finite _ => negInf
  | negInf, posInf => nan
  | negInf, negInf => negInf

/-- IEEE division on extended values (zeros are treated as `+0`). -/
def div : EFloat → EFloat → EFloat
  | nan, _ => nan
  | _, nan => nan
  | finite a, finite b =>
      if b = 0 then (if a = 0 then nan else if 0 < a then posInf else negInf)
      else finite (a / b)
  | finite _, posInf => finite 0
  | finite _, negInf => finite 0
  | posInf, finite b => if 0 ≤ b then posInf else negInf
  | posInf, posInf => nan
  | posInf, negInf => nan
  | negInf, finite b => if 0 ≤ b then negInf else posInf
  | negInf, posInf => nan
  | negInf, negInf => nan

/-- Whether the value is NaN. -/
def isNaN : EFloat → Bool
  | nan => true
  | _ => false

/-- pandas `Series.sum()` with its default `skipna=True`: NaN entries are
skipped and the empty sum is `0`. -/
def pandasSum (l : List EFloat) : EFloat :=
  (l.filter (fun x => !x.isNaN)).foldl add (finite 0)

/-- Python `round(x, d)` on an extended value (±∞ and NaN pass through). -/
def roundE : EFloat → ℕ → EFloat
  | finite q, d => finite (roundq q d)
  | e, _ => e

end EFloat

namespace ABBacktest

/-- Line 247: `weight = round(self.coins_indicators[d]["ATRR"] / self.ATRR_elite_sum, 6)`
for one elite coin with inverse volatility `a`, where `atrrs` are the elite
set's inverse volatilities and `ATRR_elite_sum` is their pandas sum. -/
def eliteWeight (atrrs : List EFloat) (a : EFloat) : EFloat :=
  EFloat.roundE (a.div (EFloat.pandasSum atrrs)) 6

/-- The allocation weights of the whole elite set. -/
def eliteWeights (atrrs : List EFloat) : List EFloat :=
  atrrs.map (eliteWeight atrrs)

/-- Line 246: `playing_value = self.broker.get_value() * (self.elite_length /
(self.NUM_ELITE_COINS + 1))`. -/
def playingValue (brokerValue : ℚ) (eliteLength numEliteCoins : ℕ) : ℚ :=
  brokerValue * ((eliteLength : ℚ) / ((numEliteCoins : ℚ) + 1))

/-- Lines 246–248 (finite-weight case, over `ℚ`):
`target_size = playing_value * weight / d.close[0]` with
`weight = round(ATRR / ATRR_elite_sum, 6)`. -/
def targetSize (brokerValue : ℚ) (eliteLength numEliteCoins : ℕ)
    (atrr atrrEliteSum close : ℚ) : ℚ :=
  playingValue brokerValue eliteLength numEliteCoins * roundq (atrr / atrrEliteSum) 6 / close

/-! ### Order lifecycle of `KeltnerStrategy.next` (lines 207–252) -/

/-- An order submitted by `KeltnerStrategy.next`: the forced market exit
(line 241), the upper-band limit exit (line 252) or the lower-band limit
entry (line 249). -/
inductive Order where
  | marketClose (pair : String)
  | limitClose (pair : String) (price : ℚ)
  | limitBuy (pair : String) (price : ℚ) (size : ℚ)
deriving DecidableEq

/-- The instrument an order belongs to. -/
def Order.pair : Order → String
  | .marketClose p => p
  | .limitClose p _ => p
  | .limitBuy p _ _ => p

/-- Lines 238–241, the sell section: for every coin in the loop list holding
a position (`getposition(d)` truthy ⇔ nonzero size) that is not among the
elite coins, submit a market close. -/
def sellOrders (P N : ℕ) (bl : List String) (coins : List CoinState) : List Order :=
  (allCoinsLoopList P coins).filterMap (fun d =>
    if d.pos ≠ 0 ∧ d.pair ∉ (eliteCoins P N bl coins).map CoinState.pair then
      some (Order.marketClose d.pair)
    else none)

/-- Lines 243–252, the buy section: for every elite coin, a limit buy at the
lower Keltner band sized by `targetSize` when flat, else a limit close at the
upper band.  The two `if getposition(d)` tests in the source see the same
position (submitting an order cannot fill it within the same call), so they
are modelled as if/else. -/
def buyOrders (P N : ℕ) (bl : List String) (V : ℚ) (coins : List CoinState) : List Order :=
  (eliteCoins P N bl coins).map (fun d =>
    if d.pos = 0 then
      Order.limitBuy d.pair d.klBot
        (targetSize V (eliteCoins P N bl coins).length N d.atrr
          (((eliteCoins P N bl coins).map CoinState.atrr).sum) d.close)
    else Order.limitClose d.pair d.klTop)

/-- One full `next()` call: line 209 first cancels every still-open order,
then the sell and buy sections submit this cycle's orders. -/
def nextOrders (P N : ℕ) (bl : List String) (V : ℚ) (coins : List CoinState) : List Order :=
  sellOrders P N bl coins ++ buyOrders P N bl V coins

/-- Broker-visible state between events: the per-coin data and the live
(submitted, not yet filled/cancelled) orders. -/
structure SysState where
  coins : List CoinState
  live : List Order

/-- Replace coin `p`'s position size. -/
def setPos (coins : List CoinState) (p : String) (sz : ℚ) : List CoinState :=
  coins.map (fun c => if c.pair = p then { c with pos := sz } else c)

/-- A new bar arrives: each coin keeps its pair and position, its observed
bar count does not decrease, and all indicator values may change. -/
def BarUpdate (old upd : List CoinState) : Prop :=
  List.Forall₂ (fun c c2 => c2.pair = c.pair ∧ c.len ≤ c2.len ∧ c2.pos = c.pos) old upd

/-- Event semantics of one backtest run: an evaluation cycle (cancel all open
orders, then submit `nextOrders`), an asynchronous fill of a live order by
the broker (a buy fill opens the position at the order's size, a close fill
flattens it), a live order disappearing without a fill
(cancelled/rejected/margin/expired), or a new bar. -/
inductive Step (P N : ℕ) (bl : List String) (V : ℚ) : SysState → SysState → Prop
  | cycle (s : SysState) :
      Step P N bl V s ⟨s.coins, nextOrders P N bl V s.coins⟩
  | fillBuy (s : SysState) (p : String) (pr sz : ℚ)
      (h : Order.limitBuy p pr sz ∈ s.live) :
      Step P N bl V s ⟨setPos s.coins p sz, s.live.erase (Order.limitBuy p pr sz)⟩
  | fillMarketClose (s : SysState) (p : String)
      (h : Order.marketClose p ∈ s.live) :
      Step P N bl V s ⟨setPos s.coins p 0, s.live.erase (Order.marketClose p)⟩
  | fillLimitClose (s : SysState) (p : String) (pr : ℚ)
      (h : Order.limitClose p pr ∈ s.live) :
      Step P N bl V s ⟨setPos s.coins p 0, s.live.erase (Order.limitClose p pr)⟩
  | orderGone (s : SysState) (o : Order) (h : o ∈ s.live) :
      Step P N bl V s ⟨s.coins, s.live.erase o⟩
  | bar (s : SysState) (coins2 : List CoinState) (h : BarUpdate s.coins coins2) :
      Step P N bl V s ⟨coins2, s.live⟩

/-- Start of a run: distinct pair names, no positions, no orders. -/
def InitState (s : SysState) : Prop :=
  (s.coins.map CoinState.pair).Nodup ∧ (∀ c ∈ s.coins, c.pos = 0) ∧ s.live = []

/-- States reachable from some valid initial state. -/
def Reachable (P N : ℕ) (bl : List String) (V : ℚ) (s : SysState) : Prop :=
  ∃ s0, InitState s0 ∧ Relation.ReflTransGen (Step P N bl V) s0 s

/-- Run invariant: pair names stay distinct; a coin holding a position has
passed the length filter (it was bought while elite, hence in the loop list,
and bar counts only grow); live orders target pairwise distinct instruments;
and a live buy order only targets coins past the length filter. -/
def Inv (P : ℕ) (s : SysState) : Prop :=
  (s.coins.map CoinState.pair).Nodup ∧
  (∀ c ∈ s.coins, c.pos ≠ 0 → P < c.len) ∧
  (s.live.map Order.pair).Nodup ∧
  (∀ p pr sz, Order.limitBuy p pr sz ∈ s.live →
    ∀ c ∈ s.coins, c.pair = p → P < c.len)

end ABBacktest

/-! ## `KeltnerStrategy` PnL accounting (lines 143–164 and 254–259) -/

namespace PnLTracker

/-- The accumulators: `self.total_percent_pnl` and the per-coin
`coins_indicators[d]["perc_pnl"]` association list. -/
structure TrackerState where
  totalPercentPnl : ℚ
  percPnl : List (String × ℚ)

/-- `__init__`: both accumulators start at zero (lines 144, 157). -/
def init (pairs : List String) : TrackerState :=
  ⟨0, pairs.map (fun p => (p, 0))⟩

/-- Dictionary update `coins_indicators[pair]["perc_pnl"] += c`: the (unique)
entry with the given key is incremented. -/
def addToCoin : List (String × ℚ) → String → ℚ → List (String × ℚ)
  | [], _, _ => []
  | e :: rest, p, c =>
      if e.1 = p then (e.1, e.2 + c) :: rest else e :: addToCoin rest p c

/-- `notify_trade` lines 160–164, for a closed trade: the same contribution
`trade.pnlcomm / broker.get_value() * 100` accrues to the aggregate and to
the coin's own accumulator. -/
def notifyTrade (s : TrackerState) (pair : String) (contribution : ℚ) : TrackerState :=
  ⟨s.totalPercentPnl + contribution, addToCoin s.percPnl pair contribution⟩

/-- A run's sequence of closed-trade notifications, folded in order. -/
def runTrades : TrackerState → List (String × ℚ) → TrackerState
  | s, [] => s
  | s, (p, c) :: rest => runTrades (notifyTrade s p c) rest

/-- `stop` lines 254–259: the unrealized pnl contribution of every still-open
position is folded into the aggregate accumulator only; no per-coin
accumulator changes and no trade notification is produced. -/
def stop (s : TrackerState) (unrealized : List ℚ) : TrackerState :=
  ⟨s.totalPercentPnl + unrealized.sum, s.percPnl⟩

end PnLTracker

/-! ## `calc_portfolio_parity` winsor trim (funcs_for_pairs_histories.py, lines 50–77) -/

namespace FuncsPairsHistories

/-- pandas `Series.quantile(q)` with its default linear interpolation,
idealised over `ℚ`: with the values sorted ascending and `h = (n−1)·q`,
the result is `s[⌊h⌋] + (h − ⌊h⌋)·(s[⌈h⌉] − s[⌊h⌋])`. -/
def quantileQ (xs : List ℚ) (q : ℚ) : ℚ :=
  let s := List.insertionSort (fun a b : ℚ => a ≤ b) xs
  let h : ℚ := ((s.length : ℚ) - 1) * q
  let lo := s.getD ⌊h⌋.toNat 0
  let hi := s.getD ⌈h⌉.toNat 0
  lo + (h - (⌊h⌋ : ℚ)) * (hi - lo)

/-- Line 55: `TRIM = 0.1`. -/
def TRIM : ℚ := 1/10

/-- Lines 69–73: the keep-condition of the winsorizing trim for a pair whose
final natr value is `v`, among the pairs with final natr values `natrs`:
```
df["natr"].iloc[-1] > lower or df["natr"].iloc[-1] < upper
```
with `lower`/`upper` the `TRIM`/`1 − TRIM` quantiles. -/
def winsorKeep (natrs : List ℚ) (v : ℚ) : Bool :=
  decide (quantileQ natrs TRIM < v) || decide (v < quantileQ natrs (1 - TRIM))

/-- The pair list returned by `calc_portfolio_parity` (lines 50–77), keyed by
each pair's final natr value: the natr/weight columns are written into the
dataframes in place and do not affect which pairs are returned; with
`winsor_trim=True` the list is filtered by `winsorKeep`, otherwise it is
returned unchanged. -/
def parityKeptPairs (natrs : List ℚ) (winsor_trim : Bool) : List ℚ :=
  if winsor_trim then natrs.filter (winsorKeep natrs) else natrs

end FuncsPairsHistories

/-! ## Concrete fixtures used by witnesses and counterexamples -/

namespace ABBacktest

/-- A coin whose momentum line is exactly `0` (e.g. a perfectly flat close
history: slope 0 on both windows), with ample history. -/
def flatCoin : CoinState := ⟨"F", 500, 0, 1, 0, 1, 2, 1⟩

/-- The spec's ranking scenario: momentum `A=5, B=3, C=−1, D=4, E=2`. -/
def scenarioCoins : List CoinState :=
  [⟨"A", 500, 5, 1, 0, 1, 2, 1⟩, ⟨"B", 500, 3, 1, 0, 1, 2, 1⟩,
   ⟨"C", 500, -1, 1, 0, 1, 2, 1⟩, ⟨"D", 500, 4, 1, 0, 1, 2, 1⟩,
   ⟨"E", 500, 2, 1, 0, 1, 2, 1⟩]

/-- Two coins with equal momentum, the one with the later symbol arriving
first in the feed order. -/
def tieCoins : List CoinState :=
  [⟨"B", 500, 5, 1, 0, 1, 2, 1⟩, ⟨"A", 500, 5, 1, 0, 1, 2, 1⟩]

/-- One coin about to be bought by the cycle: flat, eligible, elite. -/
def soloCoin : CoinState := ⟨"X", 500, 1, 1, 0, 1, 2, 1⟩

/-- The same coin after its buy filled (position 1) and momentum turned
negative on a later bar. -/
def soloCoinLater : CoinState := ⟨"X", 500, -1, 1, 1, 1, 2, 1⟩

end ABBacktest

/-! # Theorems -/

set_option maxRecDepth 10000

/-! ## C1 — momentum scorer confidence transform -/

unseal Rat.mul Rat.add Rat.sub Rat.inv in
/-- C1 (counterexample): on the perfectly collinear log-close series
`[0, 1, 2, 3]` with momentum period 4 (slow window = last 4, fast window =
last `int(4·0.5) = 2` log-closes), linregress yields slope 1 and r = 1 on
both windows.  The claim's formula (confidence = r²) gives momentum
`(1·1²·10000 + 1·1²·10000)/2 = 10000` and confidence `(1² + 1²)/2 = 1`, but
`Momentum.next` — which applies `rvalue = 1 − rvalue` before squaring —
returns `(0, 0)`. -/
theorem C1_counterexample :
    ABBacktest.lastWindow [0, 1, 2, 3] 4 = [0, 1, 2, 3] ∧
    ABBacktest.lastWindow [0, 1, 2, 3] (4 / 2) = [2, 3] ∧
    Linregress.IsLinregress [0, 1, 2, 3] 1 1 ∧
    Linregress.IsLinregress [2, 3] 1 1 ∧
    ABBacktest.momentumNext 1 1 1 1 = (0, 0) ∧
    ((0 : ℚ), (0 : ℚ)) ≠ ((1 * 1 ^ 2 * 10000 + 1 * 1 ^ 2 * 10000) / 2, (1 ^ 2 + 1 ^ 2) / 2) := by
  decide

/-- C1 (amended): for every log-close series and period, writing
`(slope, r)` for the linregress outputs on the fast (last `period/2`) and
slow (last `period`) windows, `Momentum.next` sets each window's confidence
to `(1 − r)²` — not `r²` — its momentum contribution to
`slope · (1 − r)² · 10000`, and returns the mean of the two contributions
rounded to 2 decimals together with the mean of the two `(1 − r)²` values
rounded to 4 decimals. -/
theorem C1_amended (logCloses : List ℚ) (period : ℕ)
    (slope_fast rvalue_fast slope_slow rvalue_slow : ℚ)
    (hfast : Linregress.IsLinregress (ABBacktest.lastWindow logCloses (period / 2))
      slope_fast rvalue_fast)
    (hslow : Linregress.IsLinregress (ABBacktest.lastWindow logCloses period)
      slope_slow rvalue_slow) :
    ABBacktest.momentumNext slope_fast rvalue_fast slope_slow rvalue_slow =
      (roundq ((slope_fast * (1 - rvalue_fast) ^ 2 * 10000
          + slope_slow * (1 - rvalue_slow) ^ 2 * 10000) / 2) 2,
       roundq (((1 - rvalue_fast) ^ 2 + (1 - rvalue_slow) ^ 2) / 2) 4) := rfl

unseal Rat.mul Rat.add Rat.sub Rat.inv in
/-- C1 witness: the amended theorem applied to the collinear series
`[0, 1, 2, 3]` with period 4, where both windows regress to slope 1, r = 1. -/
theorem C1_amended_witness :
    ABBacktest.momentumNext 1 1 1 1 =
      (roundq ((1 * (1 - 1) ^ 2 * 10000 + 1 * (1 - 1) ^ 2 * 10000) / 2) 2,
       roundq (((1 - 1) ^ 2 + (1 - 1) ^ 2) / 2) 4) :=
  C1_amended [0, 1, 2, 3] 4 1 1 1 1 (by decide) (by decide)

/-! ## C2 — eligibility filter threshold -/

unseal Rat.mul Rat.add Rat.sub Rat.inv in
/-- C2 (counterexample): an instrument whose momentum line is exactly `0` —
as produced by a perfectly flat close history, whose windows regress to
slope 0 (scipy returns r = 0 there, so `Momentum.next` yields momentum 0) —
passes the line-218 filter `(pair_momentum < 0) or (pair in BLACK_LIST)` and
lands in the elite set, rather than being excluded. -/
theorem C2_counterexample :
    Linregress.IsLinregress [1, 1, 1, 1] 0 0 ∧
    (ABBacktest.momentumNext 0 0 0 0).1 = 0 ∧
    ABBacktest.flatCoin.momentum = 0 ∧
    ABBacktest.flatCoin ∈ ABBacktest.eliteCoins 400 25 [] [ABBacktest.flatCoin] := by
  decide

/-- C2 (amended): the ranking (and hence the elite set) excludes exactly the
instruments with momentum strictly less than 0 or on the denylist, among
those with enough history: membership in the ranking is equivalent to
membership in the loop list together with `¬(momentum < 0)` and not being
denylisted.  An instrument with momentum exactly 0 is retained and may be
elite. -/
theorem C2_amended (P : ℕ) (bl : List String) (coins : List ABBacktest.CoinState)
    (c : ABBacktest.CoinState) :
    c ∈ ABBacktest.coinsRanking P bl coins ↔
      c ∈ ABBacktest.allCoinsLoopList P coins ∧ ¬(c.momentum < 0) ∧ c.pair ∉ bl := by
  unfold ABBacktest.coinsRanking
  rw [List.mem_insertionSort, List.mem_filter]
  simp [decide_eq_true_eq, not_or]

/-! ## C3 — mutually exclusive top-cut configuration -/

unseal Rat.mul Rat.add Rat.sub Rat.inv in
/-- C3 (counterexample): supplying both a truthy fractional top-cut (0.5) and
a truthy absolute top-count (5) to `allocation_momentum_ranking` raises no
error: the lines-15-18 guard only fires when *neither* is supplied, and the
call proceeds using `top_number = 5`. -/
theorem C3_counterexample :
    Momentums.resolveTopNumber 10 (some (1/2)) (some 5) = Except.ok 5 := by
  norm_num [Momentums.resolveTopNumber, truthyQ, truthyN]

/-- C3 (amended): of the two ranking entry points, only
`momentum_ranking_for_pairs_histories` raises a fatal error when both a
truthy `top_decimal` and a truthy `top_number` are supplied;
`allocation_momentum_ranking` accepts that combination (its guard instead
fires when neither is supplied) and silently proceeds with the absolute
count `top_number`. -/
theorem C3_amended (numPairs : ℕ) (td : ℚ) (tn : ℕ) (htd : td ≠ 0) (htn : tn ≠ 0) :
    FuncsPairsHistories.momentumRankingArgsCheck (some td) (some tn) =
      Except.error "You can only provide either top decimal or top number" ∧
    Momentums.resolveTopNumber numPairs (some td) (some tn) = Except.ok tn := by
  constructor
  · simp [FuncsPairsHistories.momentumRankingArgsCheck, truthyN, truthyQ, htd, htn]
  · simp [Momentums.resolveTopNumber, truthyN, truthyQ, htd, htn]

/-- C3 witness: the amended theorem at `top_decimal = 0.5`, `top_number = 5`,
10 pairs. -/
theorem C3_amended_witness :
    FuncsPairsHistories.momentumRankingArgsCheck (some (1/2)) (some 5) =
      Except.error "You can only provide either top decimal or top number" ∧
    Momentums.resolveTopNumber 10 (some (1/2)) (some 5) = Except.ok 5 :=
  C3_amended 10 (1/2) 5 (by norm_num) (by decide)

/-! ## C4 — ranking order, tie-breaking and elite cut -/

unseal Rat.mul Rat.add Rat.sub Rat.inv in
/-- C4 (counterexample): two instruments with equal momentum, the one whose
symbol sorts later arriving first in the feed.  The ranking keeps the feed
order `["B", "A"]` — `sort_values(by=["momentum"])` consults no symbol key —
contradicting the claimed tie-break by instrument symbol, which would give
`["A", "B"]`. -/
theorem C4_counterexample :
    (ABBacktest.tieCoins.map ABBacktest.CoinState.momentum = [5, 5]) ∧
    (ABBacktest.coinsRanking 400 [] ABBacktest.tieCoins).map ABBacktest.CoinState.pair
      = ["B", "A"] ∧
    (["B", "A"] : List String) ≠ ["A", "B"] := by decide

/-- C4 (amended): the ranking is ordered by momentum descending with ties
kept in the data-feed order (no symbol tie-break); the elite set is the
`take N` prefix of it, of size `min N (ranking length)` — never padded; and
on the spec's scenario (momentum `A=5, B=3, C=−1, D=4, E=2`, `N=3`), C is
excluded and the elite set is exactly `A, D, B`. -/
theorem C4_amended :
    (∀ (P : ℕ) (bl : List String) (coins : List ABBacktest.CoinState),
        (ABBacktest.coinsRanking P bl coins).Pairwise
          (fun a b => b.momentum ≤ a.momentum)) ∧
    (∀ (P N : ℕ) (bl : List String) (coins : List ABBacktest.CoinState),
        (ABBacktest.eliteCoins P N bl coins).length =
          min N (ABBacktest.coinsRanking P bl coins).length) ∧
    (ABBacktest.eliteCoins 400 3 [] ABBacktest.scenarioCoins).map
        ABBacktest.CoinState.pair = ["A", "D", "B"] := by
  refine ⟨fun P bl coins => ?_, fun P N bl coins => by simp [ABBacktest.eliteCoins], ?_⟩
  · unfold ABBacktest.coinsRanking
    haveI : IsTotal ABBacktest.CoinState (fun a b => b.momentum ≤ a.momentum) :=
      ⟨fun a b => le_total _ _⟩
    haveI : IsTrans ABBacktest.CoinState (fun a b => b.momentum ≤ a.momentum) :=
      ⟨fun a b c hab hbc => le_trans hbc hab⟩
    exact List.sorted_insertionSort _ _
  · decide

/-! ## C5 — inverse-volatility weight normalisation -/

/-- Finite values are not NaN. -/
theorem EFloat.isNaN_finite (q : ℚ) : (EFloat.finite q).isNaN = false := rfl

/-- Folding IEEE addition over finite values is rational addition. -/
theorem EFloat.foldl_add_finite (qs : List ℚ) (a : ℚ) :
    (qs.map EFloat.finite).foldl EFloat.add (EFloat.finite a) = EFloat.finite (a + qs.sum) := by
  induction qs generalizing a with
  | nil => simp
  | cons q rest ih =>
      simp only [List.map_cons, List.foldl_cons, List.sum_cons]
      show (rest.map EFloat.finite).foldl EFloat.add (EFloat.finite (a + q)) = _
      rw [ih]
      ring_nf

/-- The pandas sum of finite values is the rational sum. -/
theorem EFloat.pandasSum_finite (qs : List ℚ) :
    EFloat.pandasSum (qs.map EFloat.finite) = EFloat.finite qs.sum := by
  unfold EFloat.pandasSum
  rw [List.filter_eq_self.mpr, EFloat.foldl_add_finite, zero_add]
  intro x hx
  obtain ⟨q, _, rfl⟩ := List.mem_map.mp hx
  rfl

/-- Rounding to the nearest integer moves a rational by at most 1/2. -/
theorem abs_roundHalfEven_sub_le (q : ℚ) : |(roundHalfEven q : ℚ) - q| ≤ 1 / 2 := by
  have hfl : ((⌊q⌋ : ℤ) : ℚ) ≤ q := Int.floor_le q
  have hfu : q < ((⌊q⌋ : ℤ) : ℚ) + 1 := Int.lt_floor_add_one q
  unfold roundHalfEven
  rw [abs_le]
  split_ifs with h1 h2 h3
  · constructor <;> linarith
  · push_cast
    constructor <;> linarith
  · constructor <;>
      · have : q - (⌊q⌋ : ℚ) = 1 / 2 := le_antisymm (not_lt.mp h2) (not_lt.mp h1)
        linarith
  · push_cast
    have : q - (⌊q⌋ : ℚ) = 1 / 2 := le_antisymm (not_lt.mp h2) (not_lt.mp h1)
    constructor <;> linarith

/-- Rounding to `d` decimals moves a rational by at most half an ulp. -/
theorem abs_roundq_sub_le (q : ℚ) (d : ℕ) : |roundq q d - q| ≤ 1 / (2 * 10 ^ d) := by
  have hpow : (0 : ℚ) < 10 ^ d := by positivity
  have key := abs_roundHalfEven_sub_le (q * 10 ^ d)
  unfold roundq
  have hrw : (roundHalfEven (q * 10 ^ d) : ℚ) / 10 ^ d - q
      = ((roundHalfEven (q * 10 ^ d) : ℚ) - q * 10 ^ d) / 10 ^ d := by
    field_simp
    ring
  rw [hrw, abs_div, abs_of_pos hpow, div_le_div_iff₀ hpow (by positivity)]
  nlinarith [abs_nonneg ((roundHalfEven (q * 10 ^ d) : ℚ) - q * 10 ^ d)]

/-- Summing pointwise-close functions over a list keeps the sums close. -/
theorem abs_sum_map_sub_le (l : List ℚ) (f g : ℚ → ℚ) (e : ℚ)
    (h : ∀ x ∈ l, |f x - g x| ≤ e) :
    |(l.map f).sum - (l.map g).sum| ≤ l.length * e := by
  induction l with
  | nil => simp
  | cons a t ih =>
      simp only [List.map_cons, List.sum_cons, List.length_cons]
      have h1 := h a (List.mem_cons_self a t)
      have h2 := ih (fun x hx => h x (List.mem_cons_of_mem a hx))
      have habs : |f a + (t.map f).sum - (g a + (t.map g).sum)|
          ≤ |f a - g a| + |(t.map f).sum - (t.map g).sum| := by
        have := abs_add (f a - g a) ((t.map f).sum - (t.map g).sum)
        calc |f a + (t.map f).sum - (g a + (t.map g).sum)|
            = |(f a - g a) + ((t.map f).sum - (t.map g).sum)| := by ring_nf
          _ ≤ _ := this
      calc |f a + (t.map f).sum - (g a + (t.map g).sum)|
          ≤ |f a - g a| + |(t.map f).sum - (t.map g).sum| := habs
        _ ≤ e + t.length * e := add_le_add h1 h2
        _ = (t.length + 1 : ℕ) * e := by push_cast; ring

/-- Dividing a list's elements divides its sum. -/
theorem sum_map_div_eq (l : List ℚ) (S : ℚ) :
    (l.map (fun a => a / S)).sum = l.sum / S := by
  induction l with
  | nil => simp
  | cons a t ih => simp [ih, add_div]

unseal Rat.mul Rat.add Rat.sub Rat.inv in
/-- C5 (counterexample): an elite set whose inverse volatilities are
`(+∞, 1, 1)` — e.g. one coin whose ATR is zero, making `ATRR = 1/(ATR/close)`
infinite.  The pandas sum of the column is `+∞`, so the line-247 weights are
`(NaN, 0, 0)`: the non-finite instrument does not "contribute weight 0 while
the remaining elite weights still sum to 1" — the remaining two weights are
both 0 and sum to 0, not 1. -/
theorem C5_counterexample :
    ABBacktest.eliteWeights [EFloat.posInf, EFloat.finite 1, EFloat.finite 1]
      = [EFloat.nan, EFloat.finite 0, EFloat.finite 0] ∧
    EFloat.pandasSum
        (ABBacktest.eliteWeights [EFloat.posInf, EFloat.finite 1, EFloat.finite 1])
      = EFloat.finite 0 := by decide

/-- C5 (amended): whenever every elite inverse volatility is finite and their
sum is nonzero, each elite weight is the coin's inverse volatility divided by
the elite sum (rounded to 6 decimals, line 247), and the weights sum to 1 up
to the accumulated rounding tolerance `k/(2·10⁶)` for an elite set of size
`k`; a finite-zero inverse volatility simply contributes weight 0 within
this statement.  (When some inverse volatility is infinite the code instead
produces NaN for that coin and 0 for every other, see the counterexample.) -/
theorem C5_amended (qs : List ℚ) (hsum : qs.sum ≠ 0) :
    ABBacktest.eliteWeights (qs.map EFloat.finite)
        = qs.map (fun a => EFloat.finite (roundq (a / qs.sum) 6)) ∧
    ∃ T : ℚ,
      EFloat.pandasSum (ABBacktest.eliteWeights (qs.map EFloat.finite)) = EFloat.finite T ∧
      |T - 1| ≤ qs.length / (2 * 10 ^ 6) := by
  have hmap : ABBacktest.eliteWeights (qs.map EFloat.finite)
      = qs.map (fun a => EFloat.finite (roundq (a / qs.sum) 6)) := by
    unfold ABBacktest.eliteWeights ABBacktest.eliteWeight
    rw [EFloat.pandasSum_finite, List.map_map]
    refine List.map_congr_left (fun a _ => ?_)
    simp [EFloat.div, hsum, EFloat.roundE]
  refine ⟨hmap, (qs.map (fun a => roundq (a / qs.sum) 6)).sum, ?_, ?_⟩
  · rw [hmap]
    have : qs.map (fun a => EFloat.finite (roundq (a / qs.sum) 6))
        = (qs.map (fun a => roundq (a / qs.sum) 6)).map EFloat.finite := by
      rw [List.map_map]; rfl
    rw [this, EFloat.pandasSum_finite]
  · have hone : (qs.map (fun a => a / qs.sum)).sum = 1 := by
      rw [sum_map_div_eq, div_self hsum]
    have hb := abs_sum_map_sub_le qs (fun a => roundq (a / qs.sum) 6) (fun a => a / qs.sum)
      (1 / (2 * 10 ^ 6)) (fun x _ => abs_roundq_sub_le (x / qs.sum) 6)
    rw [hone] at hb
    calc |(qs.map (fun a => roundq (a / qs.sum) 6)).sum - 1|
        ≤ qs.length * (1 / (2 * 10 ^ 6)) := hb
      _ = qs.length / (2 * 10 ^ 6) := by ring

/-- C5 witness: the amended theorem for two equal finite inverse
volatilities `(1, 1)`: both weights are `round(1/2, 6) = 1/2` and they sum to
exactly 1, within the stated tolerance. -/
theorem C5_amended_witness :
    ABBacktest.eliteWeights ([1, 1].map EFloat.finite)
        = [1, 1].map (fun a => EFloat.finite (roundq (a / [(1 : ℚ), 1].sum) 6)) ∧
    ∃ T : ℚ,
      EFloat.pandasSum (ABBacktest.eliteWeights ([1, 1].map EFloat.finite)) = EFloat.finite T ∧
      |T - 1| ≤ ([(1 : ℚ), 1] : List ℚ).length / (2 * 10 ^ 6) :=
  C5_amended [1, 1] (by norm_num)

/-! ## C6 — playable fraction and target sizing -/

/-- C6: per cycle with elite size `k`, configured elite count `N` and
portfolio value `V`, the committed capital `playing_value` equals the
playable fraction `k/(N+1)` of `V`; each elite coin's target size is its
dollar allocation `playing_value · weight` divided by its current close
(lines 246–248), with `weight` the rounded normalised inverse-volatility
weight; and `k = 3`, `N = 25`, `V = 10000` gives playable capital
`10000 · (3/26)`. -/
theorem C6_theorem :
    (∀ (V : ℚ) (k N : ℕ),
        ABBacktest.playingValue V k N = ((k : ℚ) / ((N : ℚ) + 1)) * V) ∧
    (∀ (V : ℚ) (k N : ℕ) (atrr S c : ℚ),
        ABBacktest.targetSize V k N atrr S c
          = ABBacktest.playingValue V k N * roundq (atrr / S) 6 / c) ∧
    ABBacktest.playingValue 10000 3 25 = 10000 * (3 / 26) := by
  refine ⟨fun V k N => ?_, fun V k N atrr S c => rfl, ?_⟩
  · unfold ABBacktest.playingValue; ring
  · norm_num [ABBacktest.playingValue]

/-! ## C7/C8 — forced exit and cancel-and-replace order discipline -/

namespace ABBacktest

/-- `setPos` does not change the pair column. -/
theorem setPos_map_pair (coins : List CoinState) (p : String) (sz : ℚ) :
    (setPos coins p sz).map CoinState.pair = coins.map CoinState.pair := by
  unfold setPos
  rw [List.map_map]
  refine List.map_congr_left (fun c _ => ?_)
  by_cases h : c.pair = p <;> simp [h]

/-- Membership in `setPos`: every element is an untouched original or the
original with its position replaced. -/
theorem mem_setPos (coins : List CoinState) (p : String) (sz : ℚ) (c2 : CoinState)
    (h : c2 ∈ setPos coins p sz) :
    ∃ c ∈ coins, (c.pair = p ∧ c2 = { c with pos := sz }) ∨ (c.pair ≠ p ∧ c2 = c) := by
  obtain ⟨c, hc, rfl⟩ := List.mem_map.mp h
  refine ⟨c, hc, ?_⟩
  by_cases hp : c.pair = p <;> simp [hp]

/-- The loop list is a sublist of the coins. -/
theorem loopList_sublist (P : ℕ) (coins : List CoinState) :
    (allCoinsLoopList P coins).Sublist coins :=
  List.filter_sublist coins

/-- Loop-list membership. -/
theorem mem_loopList (P : ℕ) (coins : List CoinState) (d : CoinState) :
    d ∈ allCoinsLoopList P coins ↔ d ∈ coins ∧ P < d.len := by
  unfold allCoinsLoopList
  rw [List.mem_filter]
  simp

/-- Ranking membership implies loop-list membership. -/
theorem ranking_subset_loopList (P : ℕ) (bl : List String) (coins : List CoinState)
    (d : CoinState) (h : d ∈ coinsRanking P bl coins) : d ∈ allCoinsLoopList P coins := by
  unfold coinsRanking at h
  rw [List.mem_insertionSort, List.mem_filter] at h
  exact h.1

/-- Elite coins are in the loop list. -/
theorem elite_subset_loopList (P N : ℕ) (bl : List String) (coins : List CoinState)
    (d : CoinState) (h : d ∈ eliteCoins P N bl coins) : d ∈ allCoinsLoopList P coins :=
  ranking_subset_loopList P bl coins d (List.take_subset N _ h)

/-- If the coins have distinct pairs, so does the ranking. -/
theorem nodup_pairs_ranking (P : ℕ) (bl : List String) (coins : List CoinState)
    (h : (coins.map CoinState.pair).Nodup) :
    ((coinsRanking P bl coins).map CoinState.pair).Nodup := by
  unfold coinsRanking
  have hperm := List.perm_insertionSort (fun a b : CoinState => b.momentum ≤ a.momentum)
    ((allCoinsLoopList P coins).filter
      (fun d => decide (¬(d.momentum < 0 ∨ d.pair ∈ bl))))
  refine ((hperm.map CoinState.pair).nodup_iff).mpr ?_
  have hsub : ((allCoinsLoopList P coins).filter
      (fun d => decide (¬(d.momentum < 0 ∨ d.pair ∈ bl)))).Sublist coins :=
    (List.filter_sublist _).trans (loopList_sublist P coins)
  exact (hsub.map CoinState.pair).nodup h

/-- If the coins have distinct pairs, so does the elite set. -/
theorem nodup_pairs_elite (P N : ℕ) (bl : List String) (coins : List CoinState)
    (h : (coins.map CoinState.pair).Nodup) :
    ((eliteCoins P N bl coins).map CoinState.pair).Nodup := by
  unfold eliteCoins
  exact ((List.take_sublist N _).map CoinState.pair).nodup (nodup_pairs_ranking P bl coins h)

/-- `filterMap` of an if-some-else-none is a filter followed by a map. -/
theorem filterMap_ite {α β : Type} (p : α → Prop) [DecidablePred p] (f : α → β)
    (l : List α) :
    l.filterMap (fun a => if p a then some (f a) else none)
      = (l.filter (fun a => decide (p a))).map f := by
  induction l with
  | nil => rfl
  | cons a t ih => by_cases h : p a <;> simp [h, ih]

/-- The sell section as a filter-then-map. -/
theorem sellOrders_eq (P N : ℕ) (bl : List String) (coins : List CoinState) :
    sellOrders P N bl coins
      = ((allCoinsLoopList P coins).filter (fun d =>
            decide (d.pos ≠ 0 ∧ d.pair ∉ (eliteCoins P N bl coins).map CoinState.pair))).map
          (fun d => Order.marketClose d.pair) :=
  filterMap_ite _ _ _

/-- Sell orders carry the pairs of the coins selected by the sell condition. -/
theorem sellOrders_map_pair (P N : ℕ) (bl : List String) (coins : List CoinState) :
    (sellOrders P N bl coins).map Order.pair
      = ((allCoinsLoopList P coins).filter (fun d =>
            decide (d.pos ≠ 0 ∧ d.pair ∉ (eliteCoins P N bl coins).map CoinState.pair))).map
          CoinState.pair := by
  rw [sellOrders_eq, List.map_map]
  rfl

/-- Buy-section orders carry exactly the elite pairs. -/
theorem buyOrders_map_pair (P N : ℕ) (bl : List String) (V : ℚ) (coins : List CoinState) :
    (buyOrders P N bl V coins).map Order.pair
      = (eliteCoins P N bl coins).map CoinState.pair := by
  unfold buyOrders
  rw [List.map_map]
  refine List.map_congr_left (fun d _ => ?_)
  by_cases h : d.pos = 0 <;> simp [h, Order.pair]

/-- The orders of one cycle target pairwise distinct instruments. -/
theorem nodup_pairs_nextOrders (P N : ℕ) (bl : List String) (V : ℚ)
    (coins : List CoinState) (h : (coins.map CoinState.pair).Nodup) :
    ((nextOrders P N bl V coins).map Order.pair).Nodup := by
  unfold nextOrders
  rw [List.map_append, List.nodup_append]
  refine ⟨?_, ?_, ?_⟩
  · rw [sellOrders_map_pair]
    have hsub : ((allCoinsLoopList P coins).filter (fun d =>
        decide (d.pos ≠ 0 ∧ d.pair ∉ (eliteCoins P N bl coins).map CoinState.pair))).Sublist
        coins :=
      (List.filter_sublist _).trans (loopList_sublist P coins)
    exact (hsub.map CoinState.pair).nodup h
  · rw [buyOrders_map_pair]
    exact nodup_pairs_elite P N bl coins h
  · intro x hx hy
    rw [sellOrders_map_pair] at hx
    rw [buyOrders_map_pair] at hy
    obtain ⟨d, hd, rfl⟩ := List.mem_map.mp hx
    rw [List.mem_filter] at hd
    have hcond := hd.2
    simp only [decide_eq_true_eq] at hcond
    exact hcond.2 hy

/-- Any buy order of a cycle targets an elite coin. -/
theorem limitBuy_mem_nextOrders (P N : ℕ) (bl : List String) (V : ℚ)
    (coins : List CoinState) (p : String) (pr sz : ℚ)
    (h : Order.limitBuy p pr sz ∈ nextOrders P N bl V coins) :
    ∃ d ∈ eliteCoins P N bl coins, d.pair = p := by
  unfold nextOrders at h
  rcases List.mem_append.mp h with h | h
  · rw [sellOrders_eq] at h
    obtain ⟨d, _, hd⟩ := List.mem_map.mp h
    cases hd
  · unfold buyOrders at h
    obtain ⟨d, hd, he⟩ := List.mem_map.mp h
    refine ⟨d, hd, ?_⟩
    by_cases hp : d.pos = 0
    · simp only [hp, if_true] at he
      cases he
      rfl
    · simp only [hp, if_false] at he
      cases he

/-- The forced-exit membership: a loop-list coin with a position outside the
elite set gets a market close submitted. -/
theorem marketClose_mem_sellOrders (P N : ℕ) (bl : List String)
    (coins : List CoinState) (d : CoinState) (hd : d ∈ allCoinsLoopList P coins)
    (hpos : d.pos ≠ 0)
    (helite : d.pair ∉ (eliteCoins P N bl coins).map CoinState.pair) :
    Order.marketClose d.pair ∈ sellOrders P N bl coins := by
  unfold sellOrders
  exact List.mem_filterMap.mpr ⟨d, hd, by simp [hpos, helite]⟩

/-- Distinct pairs make the pair an injective key. -/
theorem pair_inj (coins : List CoinState) (h : (coins.map CoinState.pair).Nodup)
    (c d : CoinState) (hc : c ∈ coins) (hd : d ∈ coins) (hp : c.pair = d.pair) : c = d :=
  List.inj_on_of_nodup_map h hc hd hp

/-- Bar updates preserve the pair column. -/
theorem barUpdate_map_pair (old upd : List CoinState) (h : BarUpdate old upd) :
    upd.map CoinState.pair = old.map CoinState.pair := by
  induction h with
  | nil => rfl
  | cons hcc _ ih => simp [hcc.1, ih]

/-- Bar updates preserve the position-implies-length invariant. -/
theorem barUpdate_pos_len (P : ℕ) (old upd : List CoinState) (h : BarUpdate old upd)
    (hold : ∀ c ∈ old, c.pos ≠ 0 → P < c.len) :
    ∀ c2 ∈ upd, c2.pos ≠ 0 → P < c2.len := by
  induction h with
  | nil => intro c2 hc2; cases hc2
  | cons hcc _ ih =>
      intro c2 hc2 hpos
      rcases List.mem_cons.mp hc2 with rfl | hc2
      · have := hold _ (List.mem_cons_self _ _) (by rw [← hcc.2.2]; exact hpos)
        exact lt_of_lt_of_le this hcc.2.1
      · exact ih (fun c hc => hold c (List.mem_cons_of_mem _ hc)) c2 hc2 hpos

/-- Bar updates preserve "every coin with this pair passed the length
filter". -/
theorem barUpdate_pair_len (P : ℕ) (p : String) (old upd : List CoinState)
    (h : BarUpdate old upd) (hold : ∀ c ∈ old, c.pair = p → P < c.len) :
    ∀ c2 ∈ upd, c2.pair = p → P < c2.len := by
  induction h with
  | nil => intro c2 hc2; cases hc2
  | cons hcc _ ih =>
      intro c2 hc2 hp
      rcases List.mem_cons.mp hc2 with rfl | hc2
      · have := hold _ (List.mem_cons_self _ _) (by rw [← hcc.1]; exact hp)
        exact lt_of_lt_of_le this hcc.2.1
      · exact ih (fun c hc => hold c (List.mem_cons_of_mem _ hc)) c2 hc2 hp

/-- The invariant holds initially. -/
theorem inv_init (P : ℕ) (s : SysState) (h : InitState s) : Inv P s := by
  obtain ⟨h1, h2, h3⟩ := h
  refine ⟨h1, fun c hc hpos => absurd (h2 c hc) hpos, ?_, ?_⟩
  · rw [h3]; exact List.nodup_nil
  · intro p pr sz hmem
    rw [h3] at hmem
    cases hmem

/-- The invariant is preserved by every event. -/
theorem inv_step (P N : ℕ) (bl : List String) (V : ℚ) (s s2 : SysState)
    (hinv : Inv P s) (hst : Step P N bl V s s2) : Inv P s2 := by
  obtain ⟨h1, h2, h3, h4⟩ := hinv
  cases hst with
  | cycle =>
      refine ⟨h1, h2, nodup_pairs_nextOrders P N bl V s.coins h1, ?_⟩
      intro p pr sz hmem c hc hp
      obtain ⟨d, hd, hdp⟩ := limitBuy_mem_nextOrders P N bl V s.coins p pr sz hmem
      have hdl := elite_subset_loopList P N bl s.coins d hd
      rw [mem_loopList] at hdl
      have : c = d := pair_inj s.coins h1 c d hc hdl.1 (by rw [hp, hdp])
      rw [this]
      exact hdl.2
  | fillBuy p pr sz hmem =>
      refine ⟨?_, ?_, ?_, ?_⟩
      · rw [setPos_map_pair]; exact h1
      · intro c2 hc2 hpos
        obtain ⟨c, hc, hcase⟩ := mem_setPos s.coins p sz c2 hc2
        rcases hcase with ⟨hp, rfl⟩ | ⟨_, rfl⟩
        · exact h4 p pr sz hmem c hc hp
        · exact h2 _ hc hpos
      · exact ((List.erase_sublist _ _).map Order.pair).nodup h3
      · intro p2 pr2 sz2 hmem2 c2 hc2 hp2
        obtain ⟨c, hc, hcase⟩ := mem_setPos s.coins p sz c2 hc2
        have hmem2s := (List.erase_sublist _ _).subset hmem2
        rcases hcase with ⟨_, rfl⟩ | ⟨_, rfl⟩
        · exact h4 p2 pr2 sz2 hmem2s c hc hp2
        · exact h4 p2 pr2 sz2 hmem2s _ hc hp2
  | fillMarketClose p hmem =>
      refine ⟨?_, ?_, ?_, ?_⟩
      · rw [setPos_map_pair]; exact h1
      · intro c2 hc2 hpos
        obtain ⟨c, hc, hcase⟩ := mem_setPos s.coins p 0 c2 hc2
        rcases hcase with ⟨_, rfl⟩ | ⟨_, rfl⟩
        · exact absurd rfl hpos
        · exact h2 _ hc hpos
      · exact ((List.erase_sublist _ _).map Order.pair).nodup h3
      · intro p2 pr2 sz2 hmem2 c2 hc2 hp2
        obtain ⟨c, hc, hcase⟩ := mem_setPos s.coins p 0 c2 hc2
        have hmem2s := (List.erase_sublist _ _).subset hmem2
        rcases hcase with ⟨_, rfl⟩ | ⟨_, rfl⟩
        · exact h4 p2 pr2 sz2 hmem2s c hc hp2
        · exact h4 p2 pr2 sz2 hmem2s _ hc hp2
  | fillLimitClose p pr hmem =>
      refine ⟨?_, ?_, ?_, ?_⟩
      · rw [setPos_map_pair]; exact h1
      · intro c2 hc2 hpos
        obtain ⟨c, hc, hcase⟩ := mem_setPos s.coins p 0 c2 hc2
        rcases hcase with ⟨_, rfl⟩ | ⟨_, rfl⟩
        · exact absurd rfl hpos
        · exact h2 _ hc hpos
      · exact ((List.erase_sublist _ _).map Order.pair).nodup h3
      · intro p2 pr2 sz2 hmem2 c2 hc2 hp2
        obtain ⟨c, hc, hcase⟩ := mem_setPos s.coins p 0 c2 hc2
        have hmem2s := (List.erase_sublist _ _).subset hmem2
        rcases hcase with ⟨_, rfl⟩ | ⟨_, rfl⟩
        · exact h4 p2 pr2 sz2 hmem2s c hc hp2
        · exact h4 p2 pr2 sz2 hmem2s _ hc hp2
  | orderGone o hmem =>
      refine ⟨h1, h2, ((List.erase_sublist _ _).map Order.pair).nodup h3, ?_⟩
      intro p2 pr2 sz2 hmem2 c hc hp2
      exact h4 p2 pr2 sz2 ((List.erase_sublist _ _).subset hmem2) c hc hp2
  | bar coins2 hupd =>
      refine ⟨?_, barUpdate_pos_len P s.coins coins2 hupd h2, h3, ?_⟩
      · rw [barUpdate_map_pair s.coins coins2 hupd]; exact h1
      · intro p pr sz hmem
        exact barUpdate_pair_len P p s.coins coins2 hupd (h4 p pr sz hmem)

/-- Every reachable state satisfies the invariant. -/
theorem inv_reachable (P N : ℕ) (bl : List String) (V : ℚ) (s : SysState)
    (h : Reachable P N bl V s) : Inv P s := by
  obtain ⟨s0, h0, hsteps⟩ := h
  induction hsteps with
  | refl => exact inv_init P s0 h0
  | tail _ hstep ih => exact inv_step P N bl V _ _ ih hstep

end ABBacktest

/-- C7: in every reachable state of a run, any coin that holds an open
position (`pos ≠ 0`) but is not a member of the current elite set has a
market close order among the orders submitted by that cycle's `next()` call
(lines 238–241) — the open non-elite position gets its forced exit within the
same cycle.  (Reachability supplies the needed fact that a position-holding
coin has passed the length filter: it was bought while elite, and bar counts
only grow.) -/
theorem C7_theorem (P N : ℕ) (bl : List String) (V : ℚ) (s : ABBacktest.SysState)
    (h : ABBacktest.Reachable P N bl V s) (c : ABBacktest.CoinState)
    (hc : c ∈ s.coins) (hpos : c.pos ≠ 0)
    (helite : c.pair ∉ (ABBacktest.eliteCoins P N bl s.coins).map
      ABBacktest.CoinState.pair) :
    ABBacktest.Order.marketClose c.pair ∈ ABBacktest.nextOrders P N bl V s.coins := by
  have hinv := ABBacktest.inv_reachable P N bl V s h
  have hlen := hinv.2.1 c hc hpos
  have hloop : c ∈ ABBacktest.allCoinsLoopList P s.coins :=
    (ABBacktest.mem_loopList P s.coins c).mpr ⟨hc, hlen⟩
  unfold ABBacktest.nextOrders
  exact List.mem_append.mpr
    (Or.inl (ABBacktest.marketClose_mem_sellOrders P N bl s.coins c hloop hpos helite))

unseal Rat.mul Rat.add Rat.sub Rat.inv in
/-- C7 witness: a run that buys coin "X" while elite (cycle, then the buy
fills), after which a bar flips its momentum negative; the next cycle's
orders contain the forced market close for "X". -/
theorem C7_witness :
    ABBacktest.Order.marketClose "X" ∈
      ABBacktest.nextOrders 400 25 [] 26 [ABBacktest.soloCoinLater] := by
  apply C7_theorem 400 25 [] 26 ⟨[ABBacktest.soloCoinLater], []⟩ ?_
    ABBacktest.soloCoinLater (by decide) (by decide) (by decide)
  refine ⟨⟨[ABBacktest.soloCoin], []⟩, ⟨by decide, by decide, rfl⟩, ?_⟩
  have s1 : Relation.ReflTransGen (ABBacktest.Step 400 25 [] 26)
      ⟨[ABBacktest.soloCoin], []⟩
      ⟨[ABBacktest.soloCoin], ABBacktest.nextOrders 400 25 [] 26 [ABBacktest.soloCoin]⟩ :=
    Relation.ReflTransGen.single (ABBacktest.Step.cycle _)
  have h1 : ABBacktest.nextOrders 400 25 [] 26 [ABBacktest.soloCoin]
      = [ABBacktest.Order.limitBuy "X" 1 1] := by decide
  rw [h1] at s1
  have s2 := s1.tail (ABBacktest.Step.fillBuy _ "X" 1 1 (by decide))
  have h2 : ABBacktest.setPos [ABBacktest.soloCoin] "X" 1
      = [⟨"X", 500, 1, 1, 1, 1, 2, 1⟩] := by decide
  have h3 : ([ABBacktest.Order.limitBuy "X" 1 1].erase (ABBacktest.Order.limitBuy "X" 1 1))
      = [] := by decide
  rw [h2, h3] at s2
  exact s2.tail (ABBacktest.Step.bar _ [ABBacktest.soloCoinLater]
    (List.Forall₂.cons ⟨rfl, le_refl _, rfl⟩ List.Forall₂.nil))

/-- C8: in every reachable state of a run, the live orders target pairwise
distinct instruments — no instrument ever has more than one outstanding
order.  Each cycle first discards every still-open order (line 209) and then
submits at most one order per instrument: market closes only for non-elite
position holders, and exactly one limit order (buy if flat, close if open)
per elite coin, whose pair sets are disjoint. -/
theorem C8_theorem (P N : ℕ) (bl : List String) (V : ℚ) (s : ABBacktest.SysState)
    (h : ABBacktest.Reachable P N bl V s) :
    (s.live.map ABBacktest.Order.pair).Nodup :=
  (ABBacktest.inv_reachable P N bl V s h).2.2.1

unseal Rat.mul Rat.add Rat.sub Rat.inv in
/-- C8 witness: the state right after the first cycle of a run on coin "X",
whose live orders are exactly that cycle's submissions. -/
theorem C8_witness :
    (((ABBacktest.SysState.mk [ABBacktest.soloCoin]
        (ABBacktest.nextOrders 400 25 [] 26 [ABBacktest.soloCoin])).live).map
      ABBacktest.Order.pair).Nodup :=
  C8_theorem 400 25 [] 26
    ⟨[ABBacktest.soloCoin], ABBacktest.nextOrders 400 25 [] 26 [ABBacktest.soloCoin]⟩
    ⟨⟨[ABBacktest.soloCoin], []⟩, ⟨by decide, by decide, rfl⟩,
     Relation.ReflTransGen.single (ABBacktest.Step.cycle _)⟩

/-! ## C9 — realized pnl accounting -/

namespace PnLTracker

/-- The dictionary update keeps the key column. -/
theorem addToCoin_map_fst (l : List (String × ℚ)) (p : String) (c : ℚ) :
    (addToCoin l p c).map Prod.fst = l.map Prod.fst := by
  induction l with
  | nil => rfl
  | cons e t ih => by_cases h : e.1 = p <;> simp [addToCoin, h, ih]

/-- Updating a present key adds the contribution to the column sum. -/
theorem addToCoin_sum (l : List (String × ℚ)) (p : String) (c : ℚ)
    (hp : p ∈ l.map Prod.fst) :
    ((addToCoin l p c).map Prod.snd).sum = (l.map Prod.snd).sum + c := by
  induction l with
  | nil => cases hp
  | cons e t ih =>
      by_cases h : e.1 = p
      · simp only [addToCoin, h, if_true, List.map_cons, List.sum_cons]
        ring
      · have hp2 : p ∈ t.map Prod.fst := by
          rw [List.map_cons, List.mem_cons] at hp
          rcases hp with heq | hmem
          · exact absurd heq.symm h
          · exact hmem
        simp only [addToCoin, h, if_false, List.map_cons, List.sum_cons, ih hp2]
        ring

/-- Through any run of closed trades on known instruments, the aggregate
accumulator stays equal to the sum of the per-instrument accumulators. -/
theorem runTrades_total_eq (trades : List (String × ℚ)) (s : TrackerState)
    (hkeys : ∀ t ∈ trades, t.1 ∈ s.percPnl.map Prod.fst)
    (hbase : s.totalPercentPnl = (s.percPnl.map Prod.snd).sum) :
    (runTrades s trades).totalPercentPnl
      = ((runTrades s trades).percPnl.map Prod.snd).sum := by
  induction trades generalizing s with
  | nil => exact hbase
  | cons t rest ih =>
      obtain ⟨p, c⟩ := t
      show (runTrades (notifyTrade s p c) rest).totalPercentPnl = _
      apply ih
      · intro t2 ht2
        have hmem := hkeys t2 (List.mem_cons_of_mem _ ht2)
        show t2.1 ∈ (addToCoin s.percPnl p c).map Prod.fst
        rw [addToCoin_map_fst]
        exact hmem
      · show s.totalPercentPnl + c = ((addToCoin s.percPnl p c).map Prod.snd).sum
        rw [addToCoin_sum s.percPnl p c (hkeys (p, c) (List.mem_cons_self _ _)), hbase]

/-- The initial per-coin table is keyed by the run's pairs. -/
theorem init_map_fst (pairs : List String) : (init pairs).percPnl.map Prod.fst = pairs := by
  unfold init
  induction pairs with
  | nil => rfl
  | cons p t ih => simpa using ih

/-- The initial per-coin accumulators sum to zero. -/
theorem init_snd_sum (pairs : List String) : ((init pairs).percPnl.map Prod.snd).sum = 0 := by
  unfold init
  rw [List.map_map]
  induction pairs with
  | nil => rfl
  | cons p t ih => simpa using ih

end PnLTracker

/-- C9: from a fresh run, after any sequence of closed-trade notifications on
the run's instruments the aggregate accumulator `total_percent_pnl` equals
the sum of the per-instrument `perc_pnl` accumulators exactly (hence within
any rounding tolerance); and `stop` folds the unrealized pnl of still-open
positions into the aggregate only — afterwards the aggregate exceeds that sum
by exactly the unrealized total while the per-instrument table is unchanged,
and no trade notification is produced. -/
theorem C9_theorem (pairs : List String) (trades : List (String × ℚ))
    (htr : ∀ t ∈ trades, t.1 ∈ pairs) (unrealized : List ℚ) :
    (PnLTracker.runTrades (PnLTracker.init pairs) trades).totalPercentPnl
        = ((PnLTracker.runTrades (PnLTracker.init pairs) trades).percPnl.map Prod.snd).sum ∧
    (PnLTracker.stop (PnLTracker.runTrades (PnLTracker.init pairs) trades)
        unrealized).totalPercentPnl
        = ((PnLTracker.runTrades (PnLTracker.init pairs) trades).percPnl.map Prod.snd).sum
          + unrealized.sum ∧
    (PnLTracker.stop (PnLTracker.runTrades (PnLTracker.init pairs) trades)
        unrealized).percPnl
        = (PnLTracker.runTrades (PnLTracker.init pairs) trades).percPnl := by
  have hfst := PnLTracker.init_map_fst pairs
  have hmain := PnLTracker.runTrades_total_eq trades (PnLTracker.init pairs)
    (fun t ht => by rw [hfst]; exact htr t ht)
    (by rw [PnLTracker.init_snd_sum]; rfl)
  refine ⟨hmain, ?_, rfl⟩
  show (PnLTracker.runTrades (PnLTracker.init pairs) trades).totalPercentPnl
      + unrealized.sum = _
  rw [hmain]

/-- C9 witness: pairs A, B with trades `A: +5, B: −2, A: +1` and one open
position worth `+3` unrealized at shutdown. -/
theorem C9_witness :
    (PnLTracker.runTrades (PnLTracker.init ["A", "B"])
        [("A", 5), ("B", -2), ("A", 1)]).totalPercentPnl
        = ((PnLTracker.runTrades (PnLTracker.init ["A", "B"])
            [("A", 5), ("B", -2), ("A", 1)]).percPnl.map Prod.snd).sum ∧
    (PnLTracker.stop (PnLTracker.runTrades (PnLTracker.init ["A", "B"])
        [("A", 5), ("B", -2), ("A", 1)]) [3]).totalPercentPnl
        = ((PnLTracker.runTrades (PnLTracker.init ["A", "B"])
            [("A", 5), ("B", -2), ("A", 1)]).percPnl.map Prod.snd).sum + ([(3 : ℚ)]).sum ∧
    (PnLTracker.stop (PnLTracker.runTrades (PnLTracker.init ["A", "B"])
        [("A", 5), ("B", -2), ("A", 1)]) [3]).percPnl
        = (PnLTracker.runTrades (PnLTracker.init ["A", "B"])
            [("A", 5), ("B", -2), ("A", 1)]).percPnl :=
  C9_theorem ["A", "B"] [("A", 5), ("B", -2), ("A", 1)] (by decide) [3]

/-! ## C10 — winsorizing trim of `calc_portfolio_parity` -/

unseal Rat.mul Rat.add Rat.sub Rat.inv in
/-- C10 (counterexample): two pairs with identical (non-NaN) final natr
values `5`.  Both deciles equal `5`, so the keep-condition
`natr > lower or natr < upper` fails for both pairs and `winsor_trim=True`
returns the empty list while `winsor_trim=False` returns both pairs — the
trim can remove pairs. -/
theorem C10_counterexample :
    FuncsPairsHistories.parityKeptPairs [5, 5] true = [] ∧
    FuncsPairsHistories.parityKeptPairs [5, 5] false = [5, 5] ∧
    ([] : List ℚ) ≠ [5, 5] := by decide

/-- C10 (amended): `calc_portfolio_parity` with `winsor_trim=True` returns
the same pair list as with `winsor_trim=False` exactly on those inputs where
every pair's final natr is above the lower decile or below the upper decile —
which holds whenever the two deciles do not coincide at that value, but fails
(see the counterexample) when a pair's natr equals both, e.g. when all natr
values are equal. -/
theorem C10_amended (natrs : List ℚ)
    (hkeep : ∀ v ∈ natrs, FuncsPairsHistories.winsorKeep natrs v = true) :
    FuncsPairsHistories.parityKeptPairs natrs true
      = FuncsPairsHistories.parityKeptPairs natrs false := by
  unfold FuncsPairsHistories.parityKeptPairs
  simp only [if_true, Bool.false_eq_true, if_false]
  exact List.filter_eq_self.mpr hkeep

unseal Rat.mul Rat.add Rat.sub Rat.inv in
/-- C10 witness: natr values `1, 2, 3` (deciles 1.2 and 2.8): every pair is
kept, so the trimmed and untrimmed lists agree. -/
theorem C10_amended_witness :
    FuncsPairsHistories.parityKeptPairs [1, 2, 3] true
      = FuncsPairsHistories.parityKeptPairs [1, 2, 3] false :=
  C10_amended [1, 2, 3] (by decide)
